import Mathlib

/-!
Shallow embedding of the offline-first synchronization core of the
smart-note-app repository (src/hooks/useNotes.ts, src/utils/indexedDB.ts,
src/utils/versionHistory.ts, src/types/index.ts).

Conventions of the embedding:
* JS numbers used as timestamps (`Date.now()`) are `Nat`; each function that
  calls `Date.now()` takes the current time as an explicit `now` parameter.
* Optional JS fields (`updatedAt?: number`) are `Option Nat`; the JS
  expression `note.updatedAt || note.createdAt` also falls back when
  `updatedAt` is `0` (falsy), which the embedding reproduces.
* `IndexedDB` object stores with `keyPath: 'id'` are association lists keyed
  by the id, with `put` as replace-in-place-or-append upsert.
* `async` functions are embedded as pure functions returning the new state
  together with two effect lists: `awaited` (effects the source `await`s, so
  they are durably completed before the function returns) and `background`
  (promises the source starts with `.catch(...)` but never awaits).
-/

namespace SmartNote

/-- Structure `NoteVersion` from src/types/index.ts. -/
structure NoteVersion where
  id : String
  title : String
  content : String
  timestamp : Nat
  changeType : Option String
deriving DecidableEq, Repr

/-- Structure `Note` from src/types/index.ts. -/
structure Note where
  id : String
  title : String
  content : String
  createdAt : Nat
  updatedAt : Option Nat
  isShared : Option Bool
  shareId : Option String
  versions : Option (List NoteVersion)
deriving DecidableEq, Repr

/-- The JS expression `x || d` on an optional number `x`: falls back to `d`
when `x` is `undefined` or the falsy value `0`. -/
def jsOr : Option Nat → Nat → Nat
  | some t, d => if t = 0 then d else t
  | none, d => d

/-- The effective timestamp `note.updatedAt || note.createdAt` used by every
merge comparison in src/hooks/useNotes.ts. -/
def effTs (n : Note) : Nat := jsOr n.updatedAt n.createdAt

/-- Function `createVersion` from src/utils/versionHistory.ts. -/
def createVersion (note : Note) (changeType : String) (now : Nat) : NoteVersion :=
  ⟨note.id ++ "-v" ++ Nat.repr now, note.title, note.content, now, some changeType⟩

/-- JS `list.slice(-k)`: the last `k` elements. -/
def lastSlice (l : List NoteVersion) (k : Nat) : List NoteVersion :=
  l.drop (l.length - k)

/-- Function `addVersion` from src/utils/versionHistory.ts (`MAX_VERSIONS = 10`). -/
def addVersion (note : Note) (changeType : String) (now : Nat) : Note :=
  let versions := note.versions.getD []
  let newVersion := createVersion note changeType now
  if h : versions ≠ [] then
    let lastVersion := versions.getLast h
    if lastVersion.title = note.title ∧ lastVersion.content = note.content then
      note
    else
      { note with updatedAt := some now,
                  versions := some (lastSlice (versions ++ [newVersion]) 10) }
  else
    { note with updatedAt := some now,
                versions := some (lastSlice (versions ++ [newVersion]) 10) }

/-! ### The JS `Map` used by `mergeNotes`

A JS `Map` keeps insertion order; `set` on an existing key replaces the value
in place, `set` on a new key appends. -/

/-- JS `Map.prototype.set` on an association list. -/
def mapSet : List (String × Note) → String → Note → List (String × Note)
  | [], k, v => [(k, v)]
  | (k', v') :: rest, k, v =>
    if k' = k then (k, v) :: rest else (k', v') :: mapSet rest k v

/-- JS `Map.prototype.get` on an association list. -/
def mapGet : List (String × Note) → String → Option Note
  | [], _ => none
  | (k', v') :: rest, k => if k' = k then some v' else mapGet rest k

/-- The body of the `localNotes.forEach` loop of `mergeNotes`
(src/hooks/useNotes.ts lines 333-354): a local note overrides the map entry
iff it is absent there or strictly newer. -/
def mergeStep (m : List (String × Note)) (localNote : Note) : List (String × Note) :=
  match mapGet m localNote.id with
  | none => mapSet m localNote.id localNote
  | some firebaseNote =>
    if effTs localNote > effTs firebaseNote then
      mapSet m localNote.id localNote
    else
      m

/-- The first `forEach` of `mergeNotes` (lines 328-330): insert every
Firebase note into the map. -/
def fbFold (m : List (String × Note)) (firebaseNotes : List Note) :
    List (String × Note) :=
  firebaseNotes.foldl (fun m note => mapSet m note.id note) m

/-- The second `forEach` of `mergeNotes` (lines 333-354): run `mergeStep`
for every local note. -/
def localFold (m : List (String × Note)) (localNotes : List Note) :
    List (String × Note) :=
  localNotes.foldl mergeStep m

/-- The `mergedMap` of `mergeNotes` after both loops. -/
def mergedMap (localNotes firebaseNotes : List Note) : List (String × Note) :=
  localFold (fbFold [] firebaseNotes) localNotes

/-- Function `mergeNotes` from src/hooks/useNotes.ts (lines 322-357): all Firebase
notes enter the map first, local notes override iff strictly newer, and the
values are returned sorted by `createdAt` descending. -/
def mergeNotes (localNotes firebaseNotes : List Note) : List Note :=
  ((mergedMap localNotes firebaseNotes).map Prod.snd).mergeSort
    (fun a b => b.createdAt ≤ a.createdAt)

/-- The merged list computed by `syncWithFirebase` (src/hooks/useNotes.ts
lines 452-489) during full resynchronization.  The source computes
`mergeNotes(localNotes, firebaseNotes)` without consulting the
`editingNoteId` suppression marker, so the marker parameter is unused. -/
def syncWithFirebaseMergedNotes (editingNoteId : Option String)
    (localNotes firebaseNotes : List Note) : List Note :=
  mergeNotes localNotes firebaseNotes

/-! ### The `subscribeToNotes` callback (src/hooks/useNotes.ts lines 492-532) -/

/-- Remote notes surviving the local-deletion filter: the callback keeps only
remote notes whose id already has a record in IndexedDB (lines 495-500). -/
def validFirebaseNotes (localNotes updatedNotes : List Note) : List Note :=
  let localNoteIds := localNotes.map Note.id
  updatedNotes.filter (fun firebaseNote => localNoteIds.contains firebaseNote.id)

/-- The per-local-note body of the `localNotes.map` in the subscription
callback (lines 503-522): keep the local note while it is being edited,
otherwise take the remote note iff its effective timestamp is `>=`. -/
def subscribeMergeOne (editingNoteId : Option String) (valid : List Note)
    (localNote : Note) : Note :=
  if editingNoteId = some localNote.id then
    localNote
  else
    match valid.find? (fun fn => fn.id == localNote.id) with
    | some firebaseNote =>
      if effTs firebaseNote ≥ effTs localNote then firebaseNote else localNote
    | none => localNote

/-- Outcome of one delivery of the subscription callback. -/
structure SubscribeResult where
  merged : List Note
  idbWrites : List Note
  remotePushes : List Note
deriving DecidableEq, Repr

/-- The `subscribeToNotes` callback of `useNotes` (lines 492-532).
`localNotes` is what `getNotesFromIndexedDB` returns (the local durable
store), `updatedNotes` the delivered remote snapshot.  `merged` is what
`setNotes` publishes, `idbWrites` the notes written back to IndexedDB
(every merged note except the one under edit, lines 527-531).  The callback
contains no `saveNoteToFirebase` call, so `remotePushes` is empty. -/
def onRemoteChange (editingNoteId : Option String)
    (localNotes updatedNotes : List Note) : SubscribeResult :=
  let valid := validFirebaseNotes localNotes updatedNotes
  let merged := localNotes.map (subscribeMergeOne editingNoteId valid)
  ⟨merged,
   merged.filter (fun note => ¬ editingNoteId = some note.id),
   []⟩

/-- Function `saveNoteToIndexedDB` viewed as a store transformer: IndexedDB `put`
with `keyPath: 'id'` replaces the record with the same id or appends. -/
def putStore (store : List Note) (n : Note) : List Note :=
  if store.any (fun m => m.id == n.id) then
    store.map (fun m => if m.id == n.id then n else m)
  else
    store ++ [n]

/-- The local durable store after a list of `saveNoteToIndexedDB` calls. -/
def runWrites (store : List Note) (writes : List Note) : List Note :=
  writes.foldl putStore store

/-! ### Pending-operation queue (src/utils/indexedDB.ts) -/

/-- The `operation` field of a `SyncQueueItem`. -/
inductive Op where
  | create
  | update
  | delete
deriving DecidableEq, Repr

/-- Structure `SyncQueueItem` from src/utils/indexedDB.ts. -/
structure SyncQueueItem where
  id : String
  operation : Op
  noteId : String
  note : Option Note
  timestamp : Nat
deriving DecidableEq, Repr

/-- The queue-item key computed by `addToSyncQueue`
(src/utils/indexedDB.ts line 180): the template literal
`` `${Date.now()}_${noteId}` ``. -/
def queueItemId (now : Nat) (noteId : String) : String :=
  Nat.repr now ++ "_" ++ noteId

/-- IndexedDB `put` on the `syncQueue` store (`keyPath: 'id'`): replaces the
item with the same id or appends. -/
def queuePut (queue : List SyncQueueItem) (item : SyncQueueItem) : List SyncQueueItem :=
  if queue.any (fun q => q.id == item.id) then
    queue.map (fun q => if q.id == item.id then item else q)
  else
    queue ++ [item]

/-- Function `addToSyncQueue` from src/utils/indexedDB.ts (lines 170-199), with
`Date.now()` as the explicit `now` parameter. -/
def addToSyncQueue (now : Nat) (operation : Op) (noteId : String)
    (note : Option Note) (queue : List SyncQueueItem) : List SyncQueueItem :=
  queuePut queue ⟨queueItemId now noteId, operation, noteId, note, now⟩

/-! ### `syncNotes` (src/hooks/useNotes.ts lines 382-423) -/

/-- Whether the loop body of `syncNotes` makes a remote call for this item:
`create`/`update` items call `saveNoteToFirebase` only when `item.note` is
present; `delete` items always call `deleteNoteFromFirebase`. -/
def attemptsRemote (item : SyncQueueItem) : Bool :=
  match item.operation with
  | Op.create => item.note.isSome
  | Op.update => item.note.isSome
  | Op.delete => true

/-- Drained items whose remote apply throws.  `applyOk` abstracts whether the
Firebase call for a given item succeeds; the failure is caught inside the
loop (lines 410-412) and only logged. -/
def failedItems (applyOk : SyncQueueItem → Bool) (queue : List SyncQueueItem) :
    List SyncQueueItem :=
  queue.filter (fun item => attemptsRemote item && ! applyOk item)

/-- Observable outcome of one `syncNotes` run. -/
structure SyncRun where
  failures : List SyncQueueItem
  clearCalled : Bool
  finalQueue : List SyncQueueItem
deriving DecidableEq, Repr

/-- Function `syncNotes` from src/hooks/useNotes.ts (lines 382-423), for a signed-in
online session.  An empty queue returns early (lines 389-392).  Otherwise the
loop applies each item, swallowing per-item failures, and then
`clearSyncQueue()` runs unconditionally (line 416), leaving the queue empty. -/
def syncNotesRun (queue : List SyncQueueItem) (applyOk : SyncQueueItem → Bool) :
    SyncRun :=
  if queue.isEmpty then
    ⟨[], false, queue⟩
  else
    ⟨failedItems applyOk queue, true, []⟩

/-! ### Entity lifecycle operations (src/hooks/useNotes.ts lines 546-670) -/

/-- One storage or network effect of a lifecycle call. -/
inductive Effect where
  | idbPut (n : Note)
  | idbDelete (id : String)
  | fbSave (n : Note)
  | fbDelete (id : String)
  | enqueue (operation : Op) (targetId : String) (snapshot : Option Note)
deriving DecidableEq, Repr

/-- Outcome of a lifecycle call: the caller-visible note list after the call,
the value returned to the caller, the effects the source `await`s (completed
before the call returns), and the promises it starts without awaiting.  A
call that the failure flags mark as throwing contributes no effect: its
failure is handled by the surrounding `catch`. -/
structure LifecycleRun where
  notes : List Note
  ret : Option Note
  awaited : List Effect
  background : List Effect
deriving DecidableEq, Repr

/-- The fresh note built by `createNote` (lines 547-553): every `Date.now()`
during the call is the `now` parameter. -/
def createNoteFresh (now : Nat) : Note :=
  ⟨Nat.repr now, "Untitled Note", "", now, some now, none, none, none⟩

/-- Function `createNote` from src/hooks/useNotes.ts (lines 546-582).  It is a plain
synchronous function: the IndexedDB write, the Firebase push and any enqueue
are started with `.catch(...)` and never awaited, so they are all
`background`; nothing is awaited before the note is returned. -/
def createNoteRun (now : Nat) (userId : Option String) (isOnline : Bool)
    (fbFails : Bool) (prevNotes : List Note) : LifecycleRun :=
  let noteWithVersion := addVersion (createNoteFresh now) "created" now
  let notes := noteWithVersion :: prevNotes
  match userId with
  | none => ⟨notes, some noteWithVersion, [], []⟩
  | some _ =>
    let remote :=
      if isOnline then
        if fbFails then
          [Effect.enqueue Op.create noteWithVersion.id (some noteWithVersion)]
        else
          [Effect.fbSave noteWithVersion]
      else
        [Effect.enqueue Op.create noteWithVersion.id (some noteWithVersion)]
    ⟨notes, some noteWithVersion, [], Effect.idbPut noteWithVersion :: remote⟩

/-- Function `updateNote` from src/hooks/useNotes.ts (lines 584-631).  The IndexedDB
write is awaited; when it fails (`localFail`) the catch block runs
`refreshNotes` and no durable change has completed.  Firebase failure is
caught inside and degrades to an awaited enqueue. -/
def updateNoteRun (now : Nat) (userId : Option String) (isOnline : Bool)
    (localFail : Bool) (fbFails : Bool) (prevNotes : List Note)
    (updatedNote : Note) : LifecycleRun :=
  match userId with
  | none => ⟨prevNotes, none, [], []⟩
  | some _ =>
    let noteWithVersion := addVersion { updatedNote with updatedAt := some now } "edited" now
    let notes := prevNotes.map (fun note =>
      if note.id = noteWithVersion.id then noteWithVersion else note)
    if localFail then
      ⟨notes, none, [], []⟩
    else
      let remote :=
        if isOnline then
          if fbFails then
            [Effect.enqueue Op.update noteWithVersion.id (some noteWithVersion)]
          else
            [Effect.fbSave noteWithVersion]
        else
          [Effect.enqueue Op.update noteWithVersion.id (some noteWithVersion)]
      ⟨notes, none, Effect.idbPut noteWithVersion :: remote, []⟩

/-- Function `deleteNote` from src/hooks/useNotes.ts (lines 633-670).  The IndexedDB
delete and any enqueue are awaited inside the outer `try`; if either throws
(`localDelFails` / `enqFails`), the catch block restores the previously
removed note to the caller-visible list (lines 665-668).  A Firebase delete
failure is caught inside and degrades to an enqueue. -/
def deleteNoteRun (userId : Option String) (isOnline : Bool)
    (localDelFails : Bool) (fbFails : Bool) (enqFails : Bool)
    (notes : List Note) (noteId : String) : LifecycleRun :=
  match userId with
  | none => ⟨notes, none, [], []⟩
  | some _ =>
    let deletedNote := notes.find? (fun n => n.id == noteId)
    let optimistic := notes.filter (fun note => ¬ note.id = noteId)
    let rollback := match deletedNote with
      | some d => optimistic ++ [d]
      | none => optimistic
    if localDelFails then
      ⟨rollback, none, [], []⟩
    else
      let enqueueReached := (isOnline && fbFails) || ! isOnline
      if enqueueReached && enqFails then
        ⟨rollback, none, [Effect.idbDelete noteId], []⟩
      else
        let remote :=
          if isOnline then
            if fbFails then
              [Effect.enqueue Op.delete noteId none]
            else
              [Effect.fbDelete noteId]
          else
            [Effect.enqueue Op.delete noteId none]
        ⟨optimistic, none, Effect.idbDelete noteId :: remote, []⟩

/-! ### Lemmas about the JS-Map model -/

theorem mapGet_mapSet_self (m : List (String × Note)) (k : String) (v : Note) :
    mapGet (mapSet m k v) k = some v := by
  induction m with
  | nil => simp [mapSet, mapGet]
  | cons p rest ih =>
    obtain ⟨k', v'⟩ := p
    by_cases h : k' = k
    · simp [mapSet, h, mapGet]
    · simp [mapSet, h, mapGet, ih]

theorem mapGet_mapSet_ne (m : List (String × Note)) (k : String) (v : Note)
    (x : String) (h : x ≠ k) : mapGet (mapSet m k v) x = mapGet m x := by
  induction m with
  | nil => simp [mapSet, mapGet, Ne.symm h]
  | cons p rest ih =>
    obtain ⟨k', v'⟩ := p
    by_cases h2 : k' = k
    · subst h2
      simp [mapSet, mapGet, Ne.symm h]
    · simp [mapSet, h2, mapGet, ih]

theorem mem_mapSet (m : List (String × Note)) (k : String) (v : Note)
    (p : String × Note) (hp : p ∈ mapSet m k v) : p = (k, v) ∨ p ∈ m := by
  induction m with
  | nil => simpa [mapSet] using hp
  | cons q rest ih =>
    obtain ⟨k', v'⟩ := q
    by_cases h : k' = k
    · subst h
      simp only [mapSet, if_pos rfl] at hp
      rcases List.mem_cons.mp hp with rfl | hp'
      · exact Or.inl rfl
      · exact Or.inr (List.mem_cons_of_mem _ hp')
    · simp only [mapSet, if_neg h] at hp
      rcases List.mem_cons.mp hp with rfl | hp'
      · exact Or.inr (List.mem_cons_self _ _)
      · rcases ih hp' with h1 | h1
        · exact Or.inl h1
        · exact Or.inr (List.mem_cons_of_mem _ h1)

theorem mapSet_keys (m : List (String × Note)) (k : String) (v : Note) :
    (mapSet m k v).map Prod.fst =
      if k ∈ m.map Prod.fst then m.map Prod.fst else m.map Prod.fst ++ [k] := by
  induction m with
  | nil => simp [mapSet]
  | cons p rest ih =>
    obtain ⟨k', v'⟩ := p
    by_cases h : k' = k
    · subst h
      simp [mapSet]
    · simp only [mapSet, if_neg h, List.map_cons, ih]
      by_cases h2 : k ∈ rest.map Prod.fst
      · simp [h2, Ne.symm h]
      · simp [h2, Ne.symm h]

/-- Well-formedness of the map representation: keys are distinct and each
value's `id` is its key.  Both folds of `mergeNotes` preserve it. -/
def mapWF (m : List (String × Note)) : Prop :=
  (m.map Prod.fst).Nodup ∧ ∀ p ∈ m, (p.2).id = p.1

theorem mapWF_nil : mapWF [] := by
  constructor
  · simp
  · intro p hp; cases hp

theorem mapWF_mapSet (m : List (String × Note)) (k : String) (v : Note)
    (h : mapWF m) (hv : v.id = k) : mapWF (mapSet m k v) := by
  constructor
  · rw [mapSet_keys]
    by_cases hk : k ∈ m.map Prod.fst
    · simpa [hk] using h.1
    · simp only [hk, if_neg, ite_false]
      rw [List.nodup_append]
      exact ⟨h.1, List.nodup_singleton k, by
        intro a ha hb
        simp only [List.mem_singleton] at hb
        exact hk (hb ▸ ha)⟩
  · intro p hp
    rcases mem_mapSet _ _ _ _ hp with rfl | hp'
    · exact hv
    · exact h.2 p hp'

theorem pair_unique (m : List (String × Note))
    (hnd : (m.map Prod.fst).Nodup) (x : String) (a b : Note)
    (ha : (x, a) ∈ m) (hb : (x, b) ∈ m) : a = b := by
  induction m with
  | nil => cases ha
  | cons p rest ih =>
    simp only [List.map_cons, List.nodup_cons] at hnd
    rcases List.mem_cons.mp ha with ha' | ha' <;>
      rcases List.mem_cons.mp hb with hb' | hb'
    · rw [← ha'] at hb'
      exact congrArg Prod.snd hb'.symm
    · exfalso
      apply hnd.1
      have : p.1 = x := congrArg Prod.fst ha'.symm
      rw [this]
      exact List.mem_map_of_mem Prod.fst hb'
    · exfalso
      apply hnd.1
      have : p.1 = x := congrArg Prod.fst hb'.symm
      rw [this]
      exact List.mem_map_of_mem Prod.fst ha'
    · exact ih hnd.2 ha' hb'

theorem mapGet_mem (m : List (String × Note)) (x : String) (v : Note)
    (h : mapGet m x = some v) : (x, v) ∈ m := by
  induction m with
  | nil => simp [mapGet] at h
  | cons p rest ih =>
    obtain ⟨k', v'⟩ := p
    by_cases hk : k' = x
    · subst hk
      simp [mapGet] at h
      subst h
      exact List.mem_cons_self _ _
    · simp only [mapGet, if_neg hk] at h
      exact List.mem_cons_of_mem _ (ih h)

/-- With a well-formed map, `mapGet` identifies the unique value in
`m.map Prod.snd` carrying a given id. -/
theorem mapWF_value_unique (m : List (String × Note)) (h : mapWF m)
    (x : String) (v : Note) (hget : mapGet m x = some v)
    (v' : Note) (hv' : v' ∈ m.map Prod.snd) (hid : v'.id = x) : v' = v := by
  obtain ⟨p, hp, hpv⟩ := List.mem_map.mp hv'
  have hkey : p.1 = x := by
    have := h.2 p hp
    rw [hpv] at this
    rw [← this, hid]
  have hpair : (x, v') ∈ m := by
    have : p = (x, v') := by
      obtain ⟨p1, p2⟩ := p
      simp only at hkey hpv
      rw [hkey, hpv]
    exact this ▸ hp
  exact pair_unique m h.1 x v' v hpair (mapGet_mem m x v hget)

/-! ### Lemmas about the two folds of `mergeNotes` -/

theorem fbFold_cons (m : List (String × Note)) (g : Note) (rest : List Note) :
    fbFold m (g :: rest) = fbFold (mapSet m g.id g) rest := rfl

theorem localFold_cons (m : List (String × Note)) (g : Note) (rest : List Note) :
    localFold m (g :: rest) = localFold (mergeStep m g) rest := rfl

theorem fbFold_get_of_not_mem (fbs : List Note) (m : List (String × Note))
    (x : String) (h : ∀ f ∈ fbs, f.id ≠ x) :
    mapGet (fbFold m fbs) x = mapGet m x := by
  induction fbs generalizing m with
  | nil => rfl
  | cons g rest ih =>
    rw [fbFold_cons, ih _ fun f hf => h f (List.mem_cons_of_mem _ hf)]
    exact mapGet_mapSet_ne _ _ _ _ fun he => h g (List.mem_cons_self _ _) he.symm

theorem fbFold_get_of_mem (fbs : List Note) (m : List (String × Note))
    (f : Note) (hf : f ∈ fbs) (hnd : (fbs.map Note.id).Nodup) :
    mapGet (fbFold m fbs) f.id = some f := by
  induction fbs generalizing m with
  | nil => cases hf
  | cons g rest ih =>
    simp only [List.map_cons, List.nodup_cons] at hnd
    rcases List.mem_cons.mp hf with rfl | hf'
    · rw [fbFold_cons]
      rw [fbFold_get_of_not_mem rest _ _ fun g' hg' he =>
        hnd.1 (by rw [← he]; exact List.mem_map_of_mem Note.id hg')]
      exact mapGet_mapSet_self _ _ _
    · rw [fbFold_cons]
      exact ih _ hf' hnd.2

theorem mergeStep_get_ne (m : List (String × Note)) (l : Note) (x : String)
    (h : x ≠ l.id) : mapGet (mergeStep m l) x = mapGet m x := by
  unfold mergeStep
  cases hg : mapGet m l.id with
  | none => exact mapGet_mapSet_ne _ _ _ _ h
  | some fb =>
    by_cases hc : effTs l > effTs fb
    · simp only [if_pos hc]
      exact mapGet_mapSet_ne _ _ _ _ h
    · simp only [if_neg hc]

theorem localFold_get_of_not_mem (locals : List Note) (m : List (String × Note))
    (x : String) (h : ∀ l ∈ locals, l.id ≠ x) :
    mapGet (localFold m locals) x = mapGet m x := by
  induction locals generalizing m with
  | nil => rfl
  | cons g rest ih =>
    rw [localFold_cons, ih _ fun l hl => h l (List.mem_cons_of_mem _ hl)]
    exact mergeStep_get_ne _ _ _ fun he => h g (List.mem_cons_self _ _) he.symm

/-- After the local fold, an id present in the map as `f` and among the local
notes as `l` maps to the strictly-newer-local-wins selection. -/
theorem localFold_get_of_mem_some (locals : List Note) (m : List (String × Note))
    (l f : Note) (hl : l ∈ locals) (hnd : (locals.map Note.id).Nodup)
    (hget : mapGet m l.id = some f) :
    mapGet (localFold m locals) l.id = some (if effTs l > effTs f then l else f) := by
  induction locals generalizing m with
  | nil => cases hl
  | cons g rest ih =>
    simp only [List.map_cons, List.nodup_cons] at hnd
    rcases List.mem_cons.mp hl with rfl | hl'
    · rw [localFold_cons]
      rw [localFold_get_of_not_mem rest _ _ fun g' hg' he =>
        hnd.1 (by rw [← he]; exact List.mem_map_of_mem Note.id hg')]
      unfold mergeStep
      rw [hget]
      by_cases hc : effTs l > effTs f
      · simp only [if_pos hc]
        exact mapGet_mapSet_self _ _ _
      · simp only [if_neg hc]
        exact hget
    · rw [localFold_cons]
      refine ih _ hl' hnd.2 ?_
      rw [mergeStep_get_ne m g l.id fun he =>
        hnd.1 (by rw [← he]; exact List.mem_map_of_mem Note.id hl')]
      exact hget

/-- After the local fold, an id absent from the map but present among the
local notes as `l` maps to `l` (the local-only branch of `mergeNotes`). -/
theorem localFold_get_of_mem_none (locals : List Note) (m : List (String × Note))
    (l : Note) (hl : l ∈ locals) (hnd : (locals.map Note.id).Nodup)
    (hget : mapGet m l.id = none) :
    mapGet (localFold m locals) l.id = some l := by
  induction locals generalizing m with
  | nil => cases hl
  | cons g rest ih =>
    simp only [List.map_cons, List.nodup_cons] at hnd
    rcases List.mem_cons.mp hl with rfl | hl'
    · rw [localFold_cons]
      rw [localFold_get_of_not_mem rest _ _ fun g' hg' he =>
        hnd.1 (by rw [← he]; exact List.mem_map_of_mem Note.id hg')]
      unfold mergeStep
      rw [hget]
      exact mapGet_mapSet_self _ _ _
    · rw [localFold_cons]
      refine ih _ hl' hnd.2 ?_
      rw [mergeStep_get_ne m g l.id fun he =>
        hnd.1 (by rw [← he]; exact List.mem_map_of_mem Note.id hl')]
      exact hget

theorem mapWF_fbFold (fbs : List Note) (m : List (String × Note))
    (h : mapWF m) : mapWF (fbFold m fbs) := by
  induction fbs generalizing m with
  | nil => exact h
  | cons g rest ih =>
    rw [fbFold_cons]
    exact ih _ (mapWF_mapSet _ _ _ h rfl)

theorem mapWF_mergeStep (m : List (String × Note)) (l : Note)
    (h : mapWF m) : mapWF (mergeStep m l) := by
  unfold mergeStep
  cases mapGet m l.id with
  | none => exact mapWF_mapSet _ _ _ h rfl
  | some fb =>
    by_cases hc : effTs l > effTs fb
    · simp only [if_pos hc]
      exact mapWF_mapSet _ _ _ h rfl
    · simp only [if_neg hc]
      exact h

theorem mapWF_localFold (locals : List Note) (m : List (String × Note))
    (h : mapWF m) : mapWF (localFold m locals) := by
  induction locals generalizing m with
  | nil => exact h
  | cons g rest ih =>
    rw [localFold_cons]
    exact ih _ (mapWF_mergeStep _ _ h)

theorem mapWF_mergedMap (locals fbs : List Note) : mapWF (mergedMap locals fbs) :=
  mapWF_localFold _ _ (mapWF_fbFold _ _ mapWF_nil)

/-- Membership in the merged output is membership among the map values. -/
theorem mem_mergeNotes_iff (locals fbs : List Note) (x : Note) :
    x ∈ mergeNotes locals fbs ↔ x ∈ (mergedMap locals fbs).map Prod.snd := by
  unfold mergeNotes
  exact List.mem_mergeSort

/-- Core selection property of `mergeNotes`: for an id present in both
snapshots the map ends up holding the local note iff it is strictly newer,
and that value is the unique note with this id in the output. -/
theorem mergeNotes_selection (locals fbs : List Note) (l f : Note)
    (hnl : (locals.map Note.id).Nodup) (hnf : (fbs.map Note.id).Nodup)
    (hl : l ∈ locals) (hf : f ∈ fbs) (hid : l.id = f.id) :
    (if effTs l > effTs f then l else f) ∈ mergeNotes locals fbs ∧
    ∀ x ∈ mergeNotes locals fbs, x.id = l.id →
      x = (if effTs l > effTs f then l else f) := by
  have hget : mapGet (mergedMap locals fbs) l.id =
      some (if effTs l > effTs f then l else f) := by
    unfold mergedMap
    apply localFold_get_of_mem_some _ _ _ _ hl hnl
    rw [hid]
    exact fbFold_get_of_mem _ _ _ hf hnf
  refine ⟨?_, ?_⟩
  · rw [mem_mergeNotes_iff]
    exact List.mem_map.mpr ⟨(l.id, _), mapGet_mem _ _ _ hget, rfl⟩
  · intro x hx hxid
    rw [mem_mergeNotes_iff] at hx
    exact mapWF_value_unique _ (mapWF_mergedMap locals fbs) l.id _ hget x hx hxid

/-- A remote note whose id has no local record is adopted by `mergeNotes`. -/
theorem mergeNotes_remote_only (locals fbs : List Note) (f : Note)
    (hf : f ∈ fbs) (hnf : (fbs.map Note.id).Nodup)
    (habs : ∀ l ∈ locals, l.id ≠ f.id) : f ∈ mergeNotes locals fbs := by
  have hget : mapGet (mergedMap locals fbs) f.id = some f := by
    unfold mergedMap
    rw [localFold_get_of_not_mem _ _ _ habs]
    exact fbFold_get_of_mem _ _ _ hf hnf
  rw [mem_mergeNotes_iff]
  exact List.mem_map.mpr ⟨(f.id, f), mapGet_mem _ _ _ hget, rfl⟩

/-! ### Lemmas about the subscription callback -/

theorem subscribeMergeOne_id (e : Option String) (valid : List Note) (ln : Note) :
    (subscribeMergeOne e valid ln).id = ln.id := by
  unfold subscribeMergeOne
  by_cases h : e = some ln.id
  · simp [h]
  · simp only [if_neg h]
    cases hf : valid.find? (fun fn => fn.id == ln.id) with
    | none => rfl
    | some fn =>
      have hid : fn.id = ln.id := by simpa using List.find?_some hf
      by_cases hc : effTs fn ≥ effTs ln <;> simp [hc, hid]

theorem subscribeMergeOne_suppressed (valid : List Note) (ln : Note) :
    subscribeMergeOne (some ln.id) valid ln = ln := by
  unfold subscribeMergeOne
  simp

theorem subscribeMergeOne_of_no_match (e : Option String) (valid : List Note)
    (ln : Note) (h : ∀ fn ∈ valid, fn.id ≠ ln.id) :
    subscribeMergeOne e valid ln = ln := by
  unfold subscribeMergeOne
  by_cases he : e = some ln.id
  · simp [he]
  · simp only [if_neg he]
    have hnone : valid.find? (fun fn => fn.id == ln.id) = none := by
      rw [List.find?_eq_none]
      intro fn hfn
      simpa using h fn hfn
    rw [hnone]

theorem subscribeMergeOne_of_older (e : Option String) (valid : List Note)
    (ln : Note) (h : ∀ fn ∈ valid, fn.id = ln.id → effTs fn < effTs ln) :
    subscribeMergeOne e valid ln = ln := by
  unfold subscribeMergeOne
  by_cases he : e = some ln.id
  · simp [he]
  · simp only [if_neg he]
    cases hf : valid.find? (fun fn => fn.id == ln.id) with
    | none => rfl
    | some fn =>
      have hid : fn.id = ln.id := by simpa using List.find?_some hf
      have hlt := h fn (List.mem_of_find?_eq_some hf) hid
      show (if effTs fn ≥ effTs ln then fn else ln) = ln
      rw [if_neg (Nat.not_le.mpr hlt)]

/-- Elements with a given id are unique in a list whose ids are distinct. -/
theorem nodup_id_inj (l : List Note) (h : (l.map Note.id).Nodup) (a b : Note)
    (ha : a ∈ l) (hb : b ∈ l) (hid : a.id = b.id) : a = b := by
  induction l with
  | nil => cases ha
  | cons x rest ih =>
    simp only [List.map_cons, List.nodup_cons] at h
    rcases List.mem_cons.mp ha with rfl | ha' <;>
      rcases List.mem_cons.mp hb with rfl | hb'
    · rfl
    · exact absurd (by rw [hid]; exact List.mem_map_of_mem Note.id hb') h.1
    · exact absurd (by rw [← hid]; exact List.mem_map_of_mem Note.id ha') h.1
    · exact ih h.2 ha' hb'

/-! ### Lemmas about the local durable store -/

theorem mem_putStore (s : List Note) (w n : Note) (hn : n ∈ s)
    (h : w.id ≠ n.id ∨ w = n) : n ∈ putStore s w := by
  unfold putStore
  by_cases ha : s.any (fun m => m.id == w.id)
  · simp only [if_pos ha]
    rcases h with hne | rfl
    · exact List.mem_map.mpr ⟨n, hn, by simp [Ne.symm hne]⟩
    · exact List.mem_map.mpr ⟨w, hn, by simp⟩
  · simp only [if_neg ha]
    exact List.mem_append_left _ hn

theorem mem_runWrites (s : List Note) (ws : List Note) (n : Note) (hn : n ∈ s)
    (h : ∀ w ∈ ws, w.id ≠ n.id ∨ w = n) : n ∈ runWrites s ws := by
  induction ws generalizing s with
  | nil => exact hn
  | cons w rest ih =>
    exact ih (putStore s w)
      (mem_putStore _ _ _ hn (h w (List.mem_cons_self _ _)))
      (fun w' hw' => h w' (List.mem_cons_of_mem _ hw'))

/-! ### Decimal rendering of `Date.now()`: facts about `Nat.repr`

`queueItemId` interpolates `Date.now()` into a string.  These lemmas show the
decimal rendering contains no underscore and is injective, so the id
determines the `(time, noteId)` pair. -/

theorem digitChar_digit_ne_underscore : ∀ k < 10, Nat.digitChar k ≠ '_' := by
  decide

theorem digitChar_inj_lt :
    ∀ k < 10, ∀ l < 10, Nat.digitChar k = Nat.digitChar l → k = l := by
  decide

theorem toDigitsCore_append (b : Nat) :
    ∀ (f n : Nat) (ds : List Char),
      Nat.toDigitsCore b f n ds = Nat.toDigitsCore b f n [] ++ ds := by
  intro f
  induction f with
  | zero => intro n ds; rfl
  | succ f ih =>
    intro n ds
    simp only [Nat.toDigitsCore]
    by_cases h : n / b = 0
    · simp [h]
    · simp only [h, if_false]
      rw [ih (n / b) (Nat.digitChar (n % b) :: ds),
        ih (n / b) [Nat.digitChar (n % b)]]
      simp

theorem toDigitsCore_fuel (b : Nat) (hb : 1 < b) (f : Nat) :
    ∀ (n : Nat) (ds : List Char), n < f →
      Nat.toDigitsCore b f n ds = Nat.toDigitsCore b (n + 1) n ds := by
  induction f using Nat.strong_induction_on with
  | _ f IH =>
    intro n ds hn
    match f, hn with
    | f + 1, hn =>
      simp only [Nat.toDigitsCore]
      by_cases h : n / b = 0
      · simp [h]
      · simp only [h, if_false]
        have hnpos : 0 < n := by
          rcases Nat.eq_zero_or_pos n with rfl | h2
          · simp [Nat.zero_div] at h
          · exact h2
        have hdiv : n / b < n := Nat.div_lt_self hnpos hb
        have h1 : n / b < f := lt_of_lt_of_le hdiv (Nat.lt_succ_iff.mp hn)
        rw [IH f (Nat.lt_succ_self f) (n / b) _ h1,
          IH n hn (n / b) _ hdiv]

theorem toDigits_small (n : Nat) (h : n < 10) :
    Nat.toDigits 10 n = [Nat.digitChar n] := by
  unfold Nat.toDigits
  simp only [Nat.toDigitsCore]
  simp [Nat.div_eq_of_lt h, Nat.mod_eq_of_lt h]

theorem toDigitsCore_succ_of_div_ne (f n : Nat) (ds : List Char)
    (h : n / 10 ≠ 0) :
    Nat.toDigitsCore 10 (f + 1) n ds =
      Nat.toDigitsCore 10 f (n / 10) (Nat.digitChar (n % 10) :: ds) := by
  simp only [Nat.toDigitsCore]
  rw [if_neg h]

theorem toDigits_step (n : Nat) (h : 10 ≤ n) :
    Nat.toDigits 10 n = Nat.toDigits 10 (n / 10) ++ [Nat.digitChar (n % 10)] := by
  have hpos : 0 < n / 10 := Nat.div_pos h (by norm_num)
  unfold Nat.toDigits
  rw [toDigitsCore_succ_of_div_ne n n [] hpos.ne']
  rw [toDigitsCore_fuel 10 (by norm_num) n (n / 10) _
    (Nat.div_lt_self (by omega) (by norm_num))]
  rw [toDigitsCore_append 10 (n / 10 + 1) (n / 10) [Nat.digitChar (n % 10)]]

theorem toDigits_ne_nil (n : Nat) : Nat.toDigits 10 n ≠ [] := by
  by_cases h : n < 10
  · rw [toDigits_small n h]; simp
  · rw [toDigits_step n (Nat.le_of_not_lt h)]; simp

theorem toDigits_all_digits (n : Nat) :
    ∀ c ∈ Nat.toDigits 10 n, ∃ k, k < 10 ∧ c = Nat.digitChar k := by
  induction n using Nat.strong_induction_on with
  | _ n IH =>
    by_cases h : n < 10
    · rw [toDigits_small n h]
      intro c hc
      simp at hc
      exact ⟨n, h, hc⟩
    · rw [toDigits_step n (Nat.le_of_not_lt h)]
      intro c hc
      rcases List.mem_append.mp hc with hc' | hc'
      · exact IH (n / 10) (Nat.div_lt_self (by omega) (by norm_num)) c hc'
      · simp at hc'
        exact ⟨n % 10, Nat.mod_lt n (by norm_num), hc'⟩

theorem repr_data (n : Nat) : (Nat.repr n).data = Nat.toDigits 10 n := rfl

theorem repr_no_underscore (n : Nat) : '_' ∉ (Nat.repr n).data := by
  intro hm
  rw [repr_data] at hm
  obtain ⟨k, hk, he⟩ := toDigits_all_digits n '_' hm
  exact digitChar_digit_ne_underscore k hk he.symm

theorem toDigits_injective (m : Nat) :
    ∀ n : Nat, Nat.toDigits 10 m = Nat.toDigits 10 n → m = n := by
  induction m using Nat.strong_induction_on with
  | _ m IH =>
    intro n he
    by_cases hm : m < 10 <;> by_cases hn : n < 10
    · rw [toDigits_small m hm, toDigits_small n hn] at he
      simp at he
      exact digitChar_inj_lt m hm n hn he
    · rw [toDigits_small m hm, toDigits_step n (Nat.le_of_not_lt hn)] at he
      have hlen := congrArg List.length he
      cases hq : Nat.toDigits 10 (n / 10) with
      | nil => exact absurd hq (toDigits_ne_nil (n / 10))
      | cons a l => rw [hq] at hlen; simp at hlen
    · rw [toDigits_step m (Nat.le_of_not_lt hm), toDigits_small n hn] at he
      have hlen := congrArg List.length he
      cases hq : Nat.toDigits 10 (m / 10) with
      | nil => exact absurd hq (toDigits_ne_nil (m / 10))
      | cons a l => rw [hq] at hlen; simp at hlen
    · rw [toDigits_step m (Nat.le_of_not_lt hm),
        toDigits_step n (Nat.le_of_not_lt hn)] at he
      have hinj := List.append_inj' he (by simp)
      have hdiv : m / 10 = n / 10 :=
        IH (m / 10) (Nat.div_lt_self (by omega) (by norm_num)) (n / 10) hinj.1
      have hmod : m % 10 = n % 10 := by
        have h2 := hinj.2
        simp at h2
        exact digitChar_inj_lt _ (Nat.mod_lt m (by norm_num)) _
          (Nat.mod_lt n (by norm_num)) h2
      omega

theorem append_underscore_inj :
    ∀ (a b x y : List Char), '_' ∉ a → '_' ∉ b →
      a ++ '_' :: x = b ++ '_' :: y → a = b ∧ x = y := by
  intro a
  induction a with
  | nil =>
    intro b x y _ hb he
    cases b with
    | nil => simpa using he
    | cons c b' =>
      simp at he
      exact absurd (by rw [he.1]; exact List.mem_cons_self c b') hb
  | cons c a' ih =>
    intro b x y ha hb he
    cases b with
    | nil =>
      simp at he
      exact absurd (by rw [← he.1]; exact List.mem_cons_self c a') ha
    | cons d b' =>
      simp at he
      obtain ⟨rfl, he2⟩ := he
      have hr := ih b' x y (fun hm => ha (List.mem_cons_of_mem _ hm))
        (fun hm => hb (List.mem_cons_of_mem _ hm)) he2
      exact ⟨by rw [hr.1], hr.2⟩

theorem string_data_inj (s t : String) (h : s.data = t.data) : s = t := by
  cases s
  cases t
  exact congrArg String.mk h

/-- The queue-item key determines the enqueue time and the target note id:
the decimal time contains no underscore, so splitting at the first
underscore recovers both components. -/
theorem queueItemId_inj (t1 : Nat) (n1 : String) (t2 : Nat) (n2 : String)
    (h : queueItemId t1 n1 = queueItemId t2 n2) : t1 = t2 ∧ n1 = n2 := by
  unfold queueItemId at h
  have hd := congrArg String.data h
  simp only [String.data_append] at hd
  rw [List.append_assoc, List.append_assoc] at hd
  simp only [List.singleton_append] at hd
  have hsplit := append_underscore_inj (Nat.repr t1).data (Nat.repr t2).data
    n1.data n2.data (repr_no_underscore t1) (repr_no_underscore t2) hd
  refine ⟨toDigits_injective t1 t2 ?_, string_data_inj n1 n2 hsplit.2⟩
  rw [← repr_data, ← repr_data, hsplit.1]

/-! ### Claim theorems -/

/-- C1: the claim says the pending queue is emptied only when every drained
operation was applied remotely, and that `clearSyncQueue` must not run after
a failure.  The code violates this: with one queued delete whose remote
apply fails, the failure is swallowed inside the loop, `clearSyncQueue()`
still runs, and the queue ends empty instead of retaining the failed
operation. -/
theorem C1_sync_clears_queue_despite_failure :
    (syncNotesRun [⟨"1000_7", Op.delete, "7", none, 1000⟩] (fun _ => false)).failures =
      [⟨"1000_7", Op.delete, "7", none, 1000⟩] ∧
    (syncNotesRun [⟨"1000_7", Op.delete, "7", none, 1000⟩] (fun _ => false)).clearCalled = true ∧
    (syncNotesRun [⟨"1000_7", Op.delete, "7", none, 1000⟩] (fun _ => false)).finalQueue = [] := by
  refine ⟨?_, ?_, ?_⟩ <;> decide

/-- C2: for a local/remote pair with the same id inside snapshots with
distinct ids, `mergeNotes` selects the remote value iff its effective
timestamp is `>=` the local one (ties favor remote), the local value iff the
local timestamp is strictly greater, the selected value is the unique output
note with that id, and the merge is deterministic (a pure function of its
two snapshot arguments). -/
theorem C2_mergeNotes_pair_selection (locals fbs : List Note) (l f : Note)
    (hnl : (locals.map Note.id).Nodup) (hnf : (fbs.map Note.id).Nodup)
    (hl : l ∈ locals) (hf : f ∈ fbs) (hid : l.id = f.id) :
    ((effTs f ≥ effTs l → f ∈ mergeNotes locals fbs ∧
        ∀ x ∈ mergeNotes locals fbs, x.id = l.id → x = f) ∧
      (effTs l > effTs f → l ∈ mergeNotes locals fbs ∧
        ∀ x ∈ mergeNotes locals fbs, x.id = l.id → x = l)) ∧
    (∀ locals2 fbs2, locals2 = locals → fbs2 = fbs →
      mergeNotes locals2 fbs2 = mergeNotes locals fbs) := by
  have hsel := mergeNotes_selection locals fbs l f hnl hnf hl hf hid
  refine ⟨⟨?_, ?_⟩, ?_⟩
  · intro hge
    rw [if_neg (Nat.not_lt.mpr hge)] at hsel
    exact hsel
  · intro hgt
    rw [if_pos hgt] at hsel
    exact hsel
  · intro locals2 fbs2 h1 h2
    rw [h1, h2]

theorem C2_witness :
    ((([⟨"1", "a", "b", 100, some 50, none, none, none⟩] : List Note).map Note.id).Nodup ∧
      (([⟨"1", "c", "d", 90, some 200, none, none, none⟩] : List Note).map Note.id).Nodup ∧
      (⟨"1", "a", "b", 100, some 50, none, none, none⟩ : Note) ∈
        ([⟨"1", "a", "b", 100, some 50, none, none, none⟩] : List Note) ∧
      (⟨"1", "c", "d", 90, some 200, none, none, none⟩ : Note) ∈
        ([⟨"1", "c", "d", 90, some 200, none, none, none⟩] : List Note) ∧
      effTs (⟨"1", "c", "d", 90, some 200, none, none, none⟩ : Note) ≥
        effTs (⟨"1", "a", "b", 100, some 50, none, none, none⟩ : Note)) ∧
    (⟨"1", "c", "d", 90, some 200, none, none, none⟩ : Note) ∈
      mergeNotes [⟨"1", "a", "b", 100, some 50, none, none, none⟩]
        [⟨"1", "c", "d", 90, some 200, none, none, none⟩] :=
  ⟨⟨by decide, by decide, by decide, by decide, by decide⟩,
    ((C2_mergeNotes_pair_selection
      [⟨"1", "a", "b", 100, some 50, none, none, none⟩]
      [⟨"1", "c", "d", 90, some 200, none, none, none⟩]
      ⟨"1", "a", "b", 100, some 50, none, none, none⟩
      ⟨"1", "c", "d", 90, some 200, none, none, none⟩
      (by decide) (by decide) (by decide) (by decide) rfl).1.1 (by decide)).1⟩

/-- C5 counterexample: the claim says an id in the suppression set present in
both snapshots keeps the local value in the full-resynchronization merge.
With the suppression marker set to `"1"`, the merge still selects the newer
remote note, because the resynchronization path never consults the marker. -/
theorem C5_counterexample :
    syncWithFirebaseMergedNotes (some "1")
        [⟨"1", "a", "b", 100, none, none, none, none⟩]
        [⟨"1", "c", "d", 100, some 200, none, none, none⟩] =
      [⟨"1", "c", "d", 100, some 200, none, none, none⟩] ∧
    (⟨"1", "c", "d", 100, some 200, none, none, none⟩ : Note) ≠
      ⟨"1", "a", "b", 100, none, none, none, none⟩ := by
  constructor
  · show mergeNotes _ _ = _
    simp [mergeNotes, mergedMap, localFold, fbFold, mergeStep, mapGet, mapSet,
      effTs, jsOr]
  · decide

/-- C5 amended: during full resynchronization the suppression marker is
ignored; even for a suppressed id present in both snapshots the merge picks
purely by effective timestamp, remote on ties.  Suppression is honored only
by the subscription callback. -/
theorem C5_amended (editingNoteId : Option String) (locals fbs : List Note)
    (l f : Note) (hnl : (locals.map Note.id).Nodup)
    (hnf : (fbs.map Note.id).Nodup) (hl : l ∈ locals) (hf : f ∈ fbs)
    (hid : l.id = f.id) :
    (if effTs l > effTs f then l else f) ∈
      syncWithFirebaseMergedNotes editingNoteId locals fbs ∧
    ∀ x ∈ syncWithFirebaseMergedNotes editingNoteId locals fbs,
      x.id = l.id → x = (if effTs l > effTs f then l else f) :=
  mergeNotes_selection locals fbs l f hnl hnf hl hf hid

theorem C5_amended_witness :
    ((([⟨"1", "a", "b", 100, none, none, none, none⟩] : List Note).map Note.id).Nodup ∧
      (([⟨"1", "c", "d", 100, some 200, none, none, none⟩] : List Note).map Note.id).Nodup ∧
      (⟨"1", "a", "b", 100, none, none, none, none⟩ : Note) ∈
        ([⟨"1", "a", "b", 100, none, none, none, none⟩] : List Note) ∧
      (⟨"1", "c", "d", 100, some 200, none, none, none⟩ : Note) ∈
        ([⟨"1", "c", "d", 100, some 200, none, none, none⟩] : List Note)) ∧
    (if effTs (⟨"1", "a", "b", 100, none, none, none, none⟩ : Note) >
        effTs (⟨"1", "c", "d", 100, some 200, none, none, none⟩ : Note)
      then (⟨"1", "a", "b", 100, none, none, none, none⟩ : Note)
      else ⟨"1", "c", "d", 100, some 200, none, none, none⟩) ∈
      syncWithFirebaseMergedNotes (some "1")
        [⟨"1", "a", "b", 100, none, none, none, none⟩]
        [⟨"1", "c", "d", 100, some 200, none, none, none⟩] :=
  ⟨⟨by decide, by decide, by decide, by decide⟩,
    (C5_amended (some "1")
      [⟨"1", "a", "b", 100, none, none, none, none⟩]
      [⟨"1", "c", "d", 100, some 200, none, none, none⟩]
      ⟨"1", "a", "b", 100, none, none, none, none⟩
      ⟨"1", "c", "d", 100, some 200, none, none, none⟩
      (by decide) (by decide) (by decide) (by decide) rfl).1⟩

/-- C3: while an entity id is marked as under edit, a remote-change delivery
leaves the local value in place in the caller-visible list (position `i`
keeps the stored note unchanged, whatever the remote timestamps are) and no
IndexedDB write is issued for that id. -/
theorem C3_suppression_keeps_local (x : String)
    (localNotes updatedNotes : List Note) (i : Nat)
    (hi : i < localNotes.length) (hid : localNotes[i].id = x) :
    (onRemoteChange (some x) localNotes updatedNotes).merged[i]? =
      some localNotes[i] ∧
    ∀ w ∈ (onRemoteChange (some x) localNotes updatedNotes).idbWrites,
      w.id ≠ x := by
  constructor
  · show (localNotes.map (subscribeMergeOne (some x)
      (validFirebaseNotes localNotes updatedNotes)))[i]? = _
    rw [List.getElem?_map, List.getElem?_eq_getElem hi]
    show some (subscribeMergeOne (some x) _ _) = _
    rw [← hid]
    rw [subscribeMergeOne_suppressed]
  · intro w hw
    have hp := List.of_mem_filter hw
    intro he
    rw [he] at hp
    simp at hp

/-- C4 counterexample: `createNote` is a plain synchronous function; at the
concrete call (time 1000, signed-in, offline) nothing at all is completed
before it returns — in particular the IndexedDB write of the new note is
only started in the background, so the local durable store does not yet
reflect the creation when the note is handed back to the caller. -/
theorem C4_counterexample :
    (createNoteRun 1000 (some "u") false false []).awaited = [] ∧
    Effect.idbPut (addVersion (createNoteFresh 1000) "created" 1000) ∉
      (createNoteRun 1000 (some "u") false false []).awaited ∧
    Effect.idbPut (addVersion (createNoteFresh 1000) "created" 1000) ∈
      (createNoteRun 1000 (some "u") false false []).background := by
  refine ⟨?_, ?_, ?_⟩ <;> decide

/-- C4 amended: `updateNote` and `deleteNote` complete their local-durable-
store change before returning whenever the local operation itself succeeds,
regardless of network state; `createNote` merely initiates its IndexedDB
write in the background and awaits nothing before returning. -/
theorem C4_amended (now : Nat) (u : String) (isOnline fbFails enqFails : Bool)
    (prevNotes : List Note) (updatedNote : Note) (noteId : String) :
    Effect.idbPut (addVersion { updatedNote with updatedAt := some now } "edited" now)
        ∈ (updateNoteRun now (some u) isOnline false fbFails prevNotes updatedNote).awaited ∧
    Effect.idbDelete noteId
        ∈ (deleteNoteRun (some u) isOnline false fbFails enqFails prevNotes noteId).awaited ∧
    Effect.idbPut (addVersion (createNoteFresh now) "created" now)
        ∈ (createNoteRun now (some u) isOnline fbFails prevNotes).background ∧
    (createNoteRun now (some u) isOnline fbFails prevNotes).awaited = [] := by
  refine ⟨?_, ?_, ?_, ?_⟩
  · unfold updateNoteRun
    cases isOnline <;> cases fbFails <;> simp
  · unfold deleteNoteRun
    cases isOnline <;> cases fbFails <;> cases enqFails <;> simp
  · unfold createNoteRun
    cases isOnline <;> cases fbFails <;> simp
  · unfold createNoteRun
    cases isOnline <;> cases fbFails <;> simp

/-- C6 counterexample: a remote delivery strictly older than the local note
(and no suppression) keeps the local value, but the subscription callback
performs no remote push at all, so the newer local edit is *not* propagated
back out, contrary to the claim. -/
theorem C6_counterexample :
    effTs (⟨"1", "c", "d", 100, some 150, none, none, none⟩ : Note) <
      effTs (⟨"1", "a", "b", 100, some 200, none, none, none⟩ : Note) ∧
    (onRemoteChange none [⟨"1", "a", "b", 100, some 200, none, none, none⟩]
        [⟨"1", "c", "d", 100, some 150, none, none, none⟩]).merged =
      [⟨"1", "a", "b", 100, some 200, none, none, none⟩] ∧
    (⟨"1", "a", "b", 100, some 200, none, none, none⟩ : Note) ∉
      (onRemoteChange none [⟨"1", "a", "b", 100, some 200, none, none, none⟩]
        [⟨"1", "c", "d", 100, some 150, none, none, none⟩]).remotePushes := by
  refine ⟨?_, ?_, ?_⟩ <;> decide

/-- C6 amended: when the delivered remote entity is strictly older than the
local one and the id is not suppressed, the local value is kept in the
caller-visible list, and the subscription callback pushes nothing to the
remote store (re-pushing newer local values happens only during full
resynchronization). -/
theorem C6_amended (editingNoteId : Option String)
    (localNotes updatedNotes : List Note) (i : Nat)
    (hi : i < localNotes.length)
    (hsup : ¬ editingNoteId = some localNotes[i].id)
    (holder : ∀ fn ∈ updatedNotes, fn.id = localNotes[i].id →
      effTs fn < effTs localNotes[i]) :
    (onRemoteChange editingNoteId localNotes updatedNotes).merged[i]? =
      some localNotes[i] ∧
    (onRemoteChange editingNoteId localNotes updatedNotes).remotePushes = [] := by
  constructor
  · show (localNotes.map (subscribeMergeOne editingNoteId
      (validFirebaseNotes localNotes updatedNotes)))[i]? = _
    rw [List.getElem?_map, List.getElem?_eq_getElem hi]
    show some (subscribeMergeOne editingNoteId _ _) = _
    rw [subscribeMergeOne_of_older]
    intro fn hfn hfnid
    exact holder fn (List.mem_of_mem_filter hfn) hfnid
  · rfl

theorem C6_amended_witness :
    ((¬ (none : Option String) =
        some (([⟨"1", "a", "b", 100, some 200, none, none, none⟩] :
          List Note)[0]).id) ∧
      ∀ fn ∈ ([⟨"1", "c", "d", 100, some 150, none, none, none⟩] : List Note),
        fn.id = (([⟨"1", "a", "b", 100, some 200, none, none, none⟩] :
            List Note)[0]).id →
          effTs fn < effTs (([⟨"1", "a", "b", 100, some 200, none, none, none⟩] :
            List Note)[0])) ∧
    (onRemoteChange none [⟨"1", "a", "b", 100, some 200, none, none, none⟩]
        [⟨"1", "c", "d", 100, some 150, none, none, none⟩]).merged[0]? =
      some ([⟨"1", "a", "b", 100, some 200, none, none, none⟩] :
        List Note)[0] :=
  ⟨⟨by decide, by decide⟩,
    (C6_amended none [⟨"1", "a", "b", 100, some 200, none, none, none⟩]
      [⟨"1", "c", "d", 100, some 150, none, none, none⟩] 0 (by decide)
      (by decide) (by decide)).1⟩

theorem C3_witness :
    (0 < ([⟨"1", "a", "b", 100, some 200, none, none, none⟩] : List Note).length ∧
      (([⟨"1", "a", "b", 100, some 200, none, none, none⟩] :
        List Note)[0]).id = "1") ∧
    (onRemoteChange (some "1") [⟨"1", "a", "b", 100, some 200, none, none, none⟩]
        [⟨"1", "c", "d", 100, some 999, none, none, none⟩]).merged[0]? =
      some ([⟨"1", "a", "b", 100, some 200, none, none, none⟩] : List Note)[0] :=
  ⟨⟨by decide, by decide⟩,
    (C3_suppression_keeps_local "1"
      [⟨"1", "a", "b", 100, some 200, none, none, none⟩]
      [⟨"1", "c", "d", 100, some 999, none, none, none⟩] 0
      (by decide) (by decide)).1⟩

/-- C7: a note present locally but absent from the delivered remote snapshot
is never deleted by the subscription callback: it stays in the caller-visible
merged list and is still present in the local durable store after the
callback's IndexedDB writes are applied. -/
theorem C7_remote_absence_preserves_local (editingNoteId : Option String)
    (localNotes updatedNotes : List Note) (ln : Note)
    (hnd : (localNotes.map Note.id).Nodup) (hmem : ln ∈ localNotes)
    (habs : ∀ f ∈ updatedNotes, f.id ≠ ln.id) :
    ln ∈ (onRemoteChange editingNoteId localNotes updatedNotes).merged ∧
    ln ∈ runWrites localNotes
      (onRemoteChange editingNoteId localNotes updatedNotes).idbWrites := by
  have hvalid : ∀ fn ∈ validFirebaseNotes localNotes updatedNotes,
      fn.id ≠ ln.id := fun fn hfn => habs fn (List.mem_of_mem_filter hfn)
  have hone : subscribeMergeOne editingNoteId
      (validFirebaseNotes localNotes updatedNotes) ln = ln :=
    subscribeMergeOne_of_no_match _ _ _ hvalid
  have hmerged : ln ∈ (onRemoteChange editingNoteId localNotes updatedNotes).merged :=
    List.mem_map.mpr ⟨ln, hmem, hone⟩
  refine ⟨hmerged, ?_⟩
  apply mem_runWrites _ _ _ hmem
  intro w hw
  have hw2 : w ∈ (onRemoteChange editingNoteId localNotes updatedNotes).merged :=
    List.mem_of_mem_filter hw
  obtain ⟨m, hm, hwm⟩ := List.mem_map.mp hw2
  by_cases hwid : w.id = ln.id
  · right
    have hmid : m.id = ln.id := by
      rw [← hwm] at hwid
      rw [← hwid, subscribeMergeOne_id]
    have hmln : m = ln := nodup_id_inj localNotes hnd m ln hm hmem hmid
    rw [← hwm, hmln, hone]
  · left
    exact hwid

theorem C7_witness :
    ((([⟨"1", "a", "b", 100, some 200, none, none, none⟩] : List Note).map
        Note.id).Nodup ∧
      (⟨"1", "a", "b", 100, some 200, none, none, none⟩ : Note) ∈
        ([⟨"1", "a", "b", 100, some 200, none, none, none⟩] : List Note) ∧
      ∀ f ∈ ([⟨"2", "x", "y", 50, some 999, none, none, none⟩] : List Note),
        f.id ≠ (⟨"1", "a", "b", 100, some 200, none, none, none⟩ : Note).id) ∧
    (⟨"1", "a", "b", 100, some 200, none, none, none⟩ : Note) ∈
      (onRemoteChange none [⟨"1", "a", "b", 100, some 200, none, none, none⟩]
        [⟨"2", "x", "y", 50, some 999, none, none, none⟩]).merged :=
  ⟨⟨by decide, by decide, by decide⟩,
    (C7_remote_absence_preserves_local none
      [⟨"1", "a", "b", 100, some 200, none, none, none⟩]
      [⟨"2", "x", "y", 50, some 999, none, none, none⟩]
      ⟨"1", "a", "b", 100, some 200, none, none, none⟩
      (by decide) (by decide) (by decide)).1⟩

/-- C8: when the IndexedDB removal inside `deleteNote` itself fails, the
previously removed entity (the one `notes.find` located before the optimistic
removal) is restored to the caller-visible list, so the list after the failed
delete still contains it. -/
theorem C8_delete_rollback (u : String) (isOnline fbFails enqFails : Bool)
    (notes : List Note) (noteId : String) (d : Note)
    (hfind : notes.find? (fun n => n.id == noteId) = some d) :
    d ∈ (deleteNoteRun (some u) isOnline true fbFails enqFails notes noteId).notes := by
  unfold deleteNoteRun
  simp only [hfind, if_pos]
  exact List.mem_append_right _ (List.mem_singleton.mpr rfl)

theorem C8_witness :
    (([⟨"1", "a", "b", 100, some 200, none, none, none⟩] :
        List Note).find? (fun n => n.id == "1") =
      some ⟨"1", "a", "b", 100, some 200, none, none, none⟩) ∧
    (⟨"1", "a", "b", 100, some 200, none, none, none⟩ : Note) ∈
      (deleteNoteRun (some "u") true true false false
        [⟨"1", "a", "b", 100, some 200, none, none, none⟩] "1").notes :=
  ⟨by decide,
    C8_delete_rollback "u" true false false
      [⟨"1", "a", "b", 100, some 200, none, none, none⟩] "1"
      ⟨"1", "a", "b", 100, some 200, none, none, none⟩ (by decide)⟩

/-- C9 counterexample: two distinct enqueue calls in the same millisecond for
the same target note compute the same key `"1000_7"`, so the second
IndexedDB `put` overwrites the first: after a create-enqueue and an
update-enqueue the queue holds a single item (the update). -/
theorem C9_counterexample :
    addToSyncQueue 1000 Op.create "7" none [] =
      [⟨"1000_7", Op.create, "7", none, 1000⟩] ∧
    addToSyncQueue 1000 Op.update "7" none
        (addToSyncQueue 1000 Op.create "7" none []) =
      [⟨"1000_7", Op.update, "7", none, 1000⟩] := by
  refine ⟨?_, ?_⟩ <;> decide

/-- C9 amended: queue-item ids coincide exactly when both the enqueue time
(millisecond) and the target entity id coincide; two enqueue calls with
distinct (time, target) pairs produce different ids and are both retained in
the queue, while a same-millisecond enqueue for the same target overwrites
the earlier item (shown by the counterexample). -/
theorem C9_amended (t1 t2 : Nat) (n1 n2 : String) :
    (queueItemId t1 n1 = queueItemId t2 n2 ↔ t1 = t2 ∧ n1 = n2) ∧
    (∀ (op1 op2 : Op) (note1 note2 : Option Note),
      ¬(t1 = t2 ∧ n1 = n2) →
      addToSyncQueue t2 op2 n2 note2 (addToSyncQueue t1 op1 n1 note1 []) =
        [⟨queueItemId t1 n1, op1, n1, note1, t1⟩,
         ⟨queueItemId t2 n2, op2, n2, note2, t2⟩]) := by
  have hiff : queueItemId t1 n1 = queueItemId t2 n2 ↔ t1 = t2 ∧ n1 = n2 := by
    constructor
    · exact queueItemId_inj t1 n1 t2 n2
    · rintro ⟨rfl, rfl⟩
      rfl
  refine ⟨hiff, ?_⟩
  intro op1 op2 note1 note2 hne
  have hids : queueItemId t1 n1 ≠ queueItemId t2 n2 := fun he => hne (hiff.mp he)
  show queuePut (queuePut [] _) _ = _
  unfold queuePut
  simp [hids]

theorem C9_amended_witness :
    (¬((1000 : Nat) = 1000 ∧ ("7" : String) = "8")) ∧
    addToSyncQueue 1000 Op.update "8" none
        (addToSyncQueue 1000 Op.create "7" none []) =
      [⟨queueItemId 1000 "7", Op.create, "7", none, 1000⟩,
       ⟨queueItemId 1000 "8", Op.update, "8", none, 1000⟩] :=
  ⟨by decide,
    (C9_amended 1000 1000 "7" "8").2 Op.create Op.update none none (by decide)⟩

/-- C10: a delivered remote note whose id has no record in the local durable
store is filtered out before merging, never appears in the caller-visible
merged list, is not written to IndexedDB, and such remote-only notes are
adopted only by the full-resynchronization merge `mergeNotes`. -/
theorem C10_subscription_discards_unknown (editingNoteId : Option String)
    (localNotes updatedNotes : List Note) (f : Note)
    (hf : f ∈ updatedNotes) (habs : ∀ ln ∈ localNotes, ln.id ≠ f.id) :
    f ∉ validFirebaseNotes localNotes updatedNotes ∧
    (∀ m ∈ (onRemoteChange editingNoteId localNotes updatedNotes).merged,
      m.id ≠ f.id) ∧
    (∀ w ∈ (onRemoteChange editingNoteId localNotes updatedNotes).idbWrites,
      w.id ≠ f.id) ∧
    (∀ (locals2 fbs2 : List Note), f ∈ fbs2 → (fbs2.map Note.id).Nodup →
      (∀ l ∈ locals2, l.id ≠ f.id) → f ∈ mergeNotes locals2 fbs2) := by
  have hmerged : ∀ m ∈ (onRemoteChange editingNoteId localNotes updatedNotes).merged,
      m.id ≠ f.id := by
    intro m hm
    obtain ⟨ln, hln, hmo⟩ := List.mem_map.mp hm
    rw [← hmo, subscribeMergeOne_id]
    exact habs ln hln
  refine ⟨?_, hmerged, ?_, ?_⟩
  · intro hmem
    have hp := List.of_mem_filter hmem
    rw [List.contains_eq_any_beq] at hp
    obtain ⟨y, hy, hbeq⟩ := List.any_eq_true.mp hp
    rw [← eq_of_beq hbeq] at hy
    obtain ⟨ln, hln, heq⟩ := List.mem_map.mp hy
    exact habs ln hln heq
  · intro w hw
    exact hmerged w (List.mem_of_mem_filter hw)
  · intro locals2 fbs2 h1 h2 h3
    exact mergeNotes_remote_only locals2 fbs2 f h1 h2 h3

theorem C10_witness :
    ((⟨"9", "r", "s", 400, some 500, none, none, none⟩ : Note) ∈
        ([⟨"9", "r", "s", 400, some 500, none, none, none⟩] : List Note) ∧
      (∀ ln ∈ ([⟨"1", "a", "b", 100, some 200, none, none, none⟩] : List Note),
        ln.id ≠ (⟨"9", "r", "s", 400, some 500, none, none, none⟩ : Note).id)) ∧
    (∀ m ∈ (onRemoteChange none
        [⟨"1", "a", "b", 100, some 200, none, none, none⟩]
        [⟨"9", "r", "s", 400, some 500, none, none, none⟩]).merged,
      m.id ≠ (⟨"9", "r", "s", 400, some 500, none, none, none⟩ : Note).id) :=
  ⟨⟨by decide, by decide⟩,
    (C10_subscription_discards_unknown none
      [⟨"1", "a", "b", 100, some 200, none, none, none⟩]
      [⟨"9", "r", "s", 400, some 500, none, none, none⟩]
      ⟨"9", "r", "s", 400, some 500, none, none, none⟩
      (by decide) (by decide)).2.1⟩

end SmartNote
